import Mathlib

/-!
# Verification of the doozer `Runtime` metadata-resolution engine

Shallow embedding of `doozer/doozerlib/runtime.py` (public-upstream URL
translation, branch detection, assembly-name validation, named semaphores,
the pooled koji session manager, duplicate/cycle detection and the image
build-order computation), together with proofs of the spec's claims.

Strings are modelled as Lean `String` (a wrapper around `List Char`), which
matches Python `str` for the ASCII data these functions handle; `len` is
character count in both.
-/

namespace Doozer

/-! ## String helpers

Small executable primitives over the underlying character lists, used by the
embeddings below.  `strStartsWith s p` is Python `s.startswith(p)`,
`strDropChars s n` is `s[n:]`, `strLen` is `len`. -/

def isPrefixOfList : List Char → List Char → Bool
  | [], _ => true
  | _ :: _, [] => false
  | a :: as, b :: bs => a = b && isPrefixOfList as bs

def strStartsWith (s p : String) : Bool :=
  isPrefixOfList p.data s.data

def strDropChars (s : String) (n : Nat) : String :=
  ⟨s.data.drop n⟩

def strTakeChars (s : String) (n : Nat) : String :=
  ⟨s.data.take n⟩

def strLen (s : String) : Nat :=
  s.data.length

/-- Python `s.endswith(p)` (used for the `.git` suffix strip). -/
def strEndsWith (s p : String) : Bool :=
  isPrefixOfList p.data.reverse s.data.reverse

/-- `b` occurs somewhere inside `a` (Python `b in a`). -/
def listInfix (b a : List Char) : Bool :=
  match a with
  | [] => isPrefixOfList b []
  | _ :: as => isPrefixOfList b a || listInfix b as

def strContains (a b : String) : Bool :=
  listInfix b.data a.data

/-- Split a character list on a separator character (Python `s.split(sep)`):
`splitChar '/' "a//b" = ["a", "", "b"]`. -/
def splitChar (sep : Char) : List Char → List (List Char)
  | [] => [[]]
  | a :: rest =>
    let r := splitChar sep rest
    if a = sep then [] :: r
    else (a :: r.headD []) :: r.tail

/-! ## Public upstream translation (`get_public_upstream`) -/

/-- Modelled from the spec: `artcommonlib.util.convert_remote_git_to_https` is
not among the analyzed sources (only its call sites in `runtime.py` are).  The
spec says remote URLs are "normalized to https form", and its worked example
maps `git@github.com:org/priv.git` to `https://github.com/org/priv` and the
prefix `git@github.com:org` to `https://github.com/org`: an scp-style
`git@host:path` address becomes `https://host/path` and a trailing `.git` is
stripped. -/
def convert_remote_git_to_https (url : String) : String :=
  let url := if strEndsWith url ".git" then strTakeChars url (strLen url - 4) else url
  if strStartsWith url "git@" then
    "https://" ++ ⟨(strDropChars url 4).data.map (fun c => if c = ':' then '/' else c)⟩
  else if strStartsWith url "http://" then
    "https://" ++ strDropChars url 7
  else if strStartsWith url "git://" then
    "https://" ++ strDropChars url 6
  else
    url

/-- One entry of `group_config.public_upstreams`: a
`private_url_prefix => public_url_prefix` rule with an optional public
branch override. -/
structure UpstreamRule where
  priv : String
  pub : String
  public_branch : Option String
deriving DecidableEq

/-- The running "best match" of the selection loop in `get_public_upstream`:
the Python locals `target_priv_prefix`, `target_pub_prefix`,
`target_pub_branch` (all initially `None`, modelled as `none`). -/
def selectUpstream (remote_https : String) (rules : List UpstreamRule) :
    Option (String × String × Option String) :=
  rules.foldl
    (fun acc upstream =>
      let https_priv := convert_remote_git_to_https upstream.priv
      let https_pub := convert_remote_git_to_https upstream.pub
      if strStartsWith remote_https (https_priv ++ "/") || remote_https = https_priv then
        -- "If we have not set the prefix yet, or if it is longer than the
        -- current contender".  NOTE: the source compares the new *private*
        -- prefix length against the current *public* prefix length
        -- (`len(https_priv_prefix) > len(target_pub_prefix)`); Python's
        -- `not target_priv_prefix` is also true for an empty string.
        match acc with
        | none => some (https_priv, https_pub, upstream.public_branch)
        | some (tpriv, tpub, _) =>
          if tpriv = "" || strLen https_priv > strLen tpub then
            some (https_priv, https_pub, upstream.public_branch)
          else acc
      else acc)
    none

/-- `Runtime.get_public_upstream` (runtime.py:1138-1180): normalize the remote
URL to https; if public-upstream rules are configured, pick a matching rule via
`selectUpstream` and substitute the public prefix for the private one;
otherwise return the normalized URL with no branch override. -/
def get_public_upstream (public_upstreams : List UpstreamRule) (remote_git : String) :
    String × Option String :=
  let remote_https := convert_remote_git_to_https remote_git
  -- `if self.group_config.public_upstreams:` — an empty list is falsy
  if public_upstreams = [] then (remote_https, none)
  else
    match selectUpstream remote_https public_upstreams with
    | some (tpriv, tpub, tbranch) =>
      -- `if target_priv_prefix:` — the empty string is falsy
      if tpriv = "" then (remote_https, none)
      else (tpub ++ strDropChars remote_https (strLen tpriv), tbranch)
    | none => (remote_https, none)

/-! ## Commit-hash heuristic (`is_branch_commit_hash`)

`runtime.py:1237-1252` decides "is this branch a commit hash" by
`len(branch) >= 7` and whether Python's `int(branch, 16)` parses.  We embed
CPython's base-16 integer-literal grammar: optional surrounding whitespace, an
optional sign, an optional `0x`/`0X` prefix (optionally followed by one
underscore), then hex digits with single underscores allowed between digits. -/

def isHexDigitChar (c : Char) : Bool :=
  c.isDigit || ('a' ≤ c && c ≤ 'f') || ('A' ≤ c && c ≤ 'F')

def isPySpace (c : Char) : Bool :=
  c = ' ' || c = '\t' || c = '\n' || c = '\x0d' || c = '\x0b' || c = '\x0c'

def stripPySpace (l : List Char) : List Char :=
  ((l.dropWhile isPySpace).reverse.dropWhile isPySpace).reverse

/-- Matches `(('_')? hexdigit)*`: the tail of a hex-digit run, where each
underscore must be single and followed by a digit. -/
def hexDigitsTail : List Char → Bool
  | [] => true
  | c :: rest =>
    if c = '_' then
      match rest with
      | [] => false
      | c2 :: rest2 => isHexDigitChar c2 && hexDigitsTail rest2
    else isHexDigitChar c && hexDigitsTail rest

/-- A nonempty hex-digit run with single underscores between digits. -/
def hexDigits : List Char → Bool
  | [] => false
  | c :: rest => isHexDigitChar c && hexDigitsTail rest

/-- The part after the optional sign: an optional `0x`/`0X` prefix (which may
be followed by a single underscore) and then a digit run. -/
def hexBody (l : List Char) : Bool :=
  match l with
  | c0 :: c1 :: rest =>
    if c0 = '0' && (c1 = 'x' || c1 = 'X') then
      match rest with
      | [] => false
      | c2 :: rest2 => if c2 = '_' then hexDigits rest2 else hexDigits (c2 :: rest2)
    else hexDigits l
  | _ => hexDigits l

/-- Whether CPython `int(s, 16)` succeeds (over ASCII input). -/
def pyIntHexValid (s : String) : Bool :=
  match stripPySpace s.data with
  | [] => false
  | c :: rest => if c = '+' || c = '-' then hexBody rest else hexBody (c :: rest)

/-- `Runtime.is_branch_commit_hash` (runtime.py:1237-1252): the branch is
treated as a commit hash when it has at least 7 characters and `int(branch, 16)`
does not raise `ValueError`. -/
def is_branch_commit_hash (branch : String) : Bool :=
  if strLen branch ≥ 7 then pyIntHexValid branch else false

/-! ## Branch detection (`detect_remote_source_branch`)

The remote is modelled by an oracle `ls_remote : String → Option String`
giving, for each branch name, the stdout of
`git ls-remote --heads <url> <branch>` (`none` models the command failing even
after its retries, which `_get_remote_branch_ref` swallows into "not
found"). -/

/-- Helper for `splitWs`: walk the characters keeping the (reversed) current
word in `acc`, emitting a word at each whitespace boundary. -/
def splitWsAux : List Char → List Char → List String
  | [], acc => if acc.isEmpty then [] else [⟨acc.reverse⟩]
  | c :: rest, acc =>
    if isPySpace c then
      if acc.isEmpty then splitWsAux rest [] else ⟨acc.reverse⟩ :: splitWsAux rest []
    else splitWsAux rest (c :: acc)

/-- Python `str.split()` (split on whitespace runs, dropping empty parts). -/
def splitWs (l : List Char) : List String :=
  splitWsAux l []

/-- Python `s.strip()`. -/
def pyStrip (s : String) : String :=
  ⟨stripPySpace s.data⟩

/-- `Runtime._get_remote_branch_ref` (runtime.py:1411-1430): run `ls-remote`
(errors become `none`), and on empty output fall back to returning the branch
itself when it looks like a commit hash. -/
def get_remote_branch_ref (ls_remote : String → Option String) (branch : String) :
    Option String :=
  match ls_remote branch with
  | none => none
  | some out =>
    let result := pyStrip out
    if result = "" then
      if is_branch_commit_hash branch then some branch else none
    else some ((splitWs result.data).headD "")

/-- The `source_details["branch"]` mapping: target branch, optional fallback,
optional stage branch. -/
structure SourceBranchConfig where
  target : String
  fallback : Option String
  stage : Option String
deriving DecidableEq

/-- Python truthiness of an `Optional[str]`. -/
def optStrTruthy : Option String → Bool
  | none => false
  | some s => s ≠ ""

/-- `Runtime.detect_remote_source_branch` (runtime.py:1374-1409).  Returns the
`(branch, hash)` result or the fatal error message, paired with the list of
branch names that were actually queried on the remote (in order). -/
def detect_remote_source_branch
    (use_source_fallback_branch : String) (stage_flag : Bool) (git_url : String)
    (ls_remote : String → Option String) (branches : SourceBranchConfig) :
    Except String (String × String) × List String :=
  let branch := branches.target
  let fallback_branch := branches.fallback
  let (branch, fallback_branch) :=
    if use_source_fallback_branch = "always" && optStrTruthy fallback_branch then
      (fallback_branch.getD "", none)
    else if use_source_fallback_branch = "never" then (branch, none)
    else (branch, fallback_branch)
  let stage_branch := if stage_flag then branches.stage else none
  if optStrTruthy stage_branch then
    let sb := stage_branch.getD ""
    match get_remote_branch_ref ls_remote sb with
    | some r => (.ok (sb, r), [sb])
    | none =>
      (.error ("--stage option specified and no stage branch named \"" ++ sb
        ++ "\" exists for " ++ git_url), [sb])
  else if is_branch_commit_hash branch then
    (.ok (branch, branch), [])
  else
    match get_remote_branch_ref ls_remote branch with
    | some r => (.ok (branch, r), [branch])
    | none =>
      if !optStrTruthy fallback_branch then
        (.error ("Requested target branch " ++ branch
          ++ " does not exist and no fallback provided"), [branch])
      else
        let fb := fallback_branch.getD ""
        match get_remote_branch_ref ls_remote fb with
        | some r => (.ok (fb, r), [branch, fb])
        | none =>
          -- NOTE: the source formats the *target* branch into this message,
          -- not the fallback branch that was just probed.
          (.error ("Requested fallback branch " ++ branch ++ " does not exist"),
            [branch, fb])

/-! ## Assembly name validation (`initialize`, runtime.py:432-438) -/

/-- A character matched by `\w` in Python's `re` (ASCII model): alphanumerics
and underscore. -/
def reWordChar (c : Char) : Bool :=
  c.isAlphanum || c = '_'

/-- `re.fullmatch(r'[\w.]+', s) is not None` (ASCII model): nonempty and all
characters are word characters or dots. -/
def fullmatchWordDot (s : String) : Bool :=
  !s.data.isEmpty && s.data.all (fun c => reWordChar c || c = '.')

/-- The condition under which runtime.py:433 accepts an assembly name:
fullmatch succeeds, and the name neither starts nor ends with a dot.
(The indexing `self.assembly[0]` / `[-1]` is only reached when fullmatch
succeeded, hence on a nonempty string; `headD`/`getLastD` are total stand-ins.) -/
def assembly_name_ok (assembly : String) : Bool :=
  fullmatchWordDot assembly
    && !(assembly.data.headD ' ' = '.') && !(assembly.data.getLastD ' ' = '.')

/-- The assembly-validation step of `Runtime.initialize` (runtime.py:432-438):
with assemblies enabled (group config or CLI override), an invalid name raises
`ValueError`; with assemblies disabled the assembly is discarded (`None`). -/
def initialize_assembly (assemblies_enabled enable_assemblies : Bool)
    (assembly : String) : Except String (Option String) :=
  if assemblies_enabled || enable_assemblies then
    if assembly_name_ok assembly then .ok (some assembly)
    else .error "Assembly names may only consist of alphanumerics, ., and _, but not start or end with a dot (.)."
  else .ok none

/-! ## Named semaphores (`get_named_semaphore`, runtime.py:213-234)

Semaphore objects are modelled by allocation ids: two calls return the
identical object exactly when they return the same id.  The registry starts as
`{'': Lock()}` (runtime.py:132); the reserved `''` entry is the registry guard,
whose `with` acquisition serializes the check-and-create (modelled by the
sequential state passing). -/

structure SemaphoreTable where
  /-- `self.named_semaphores`: key, semaphore object id, and the `count` the
  semaphore was created with. -/
  entries : List (String × Nat × Nat)
  /-- Next fresh object id. -/
  next_id : Nat
deriving DecidableEq

def initNamedSemaphores : SemaphoreTable :=
  { entries := [("", 0, 1)], next_id := 1 }

def lookupEntry (entries : List (String × Nat × Nat)) (k : String) :
    Option (Nat × Nat) :=
  match entries with
  | [] => none
  | (k2, v) :: rest => if k2 = k then some v else lookupEntry rest k

/-- Modelled from the spec: `pathlib.Path(p).absolute()` is standard-library
code, not in the analyzed sources.  Per the spec, directory keys are
"normalized to an absolute, trailing-slash-stripped path so that equivalent
path spellings collapse to one lock": relative paths are joined onto the
working directory, and spurious slashes and `.` segments collapse. -/
def pathAbsolute (cwd p : String) : String :=
  let joined := if strStartsWith p "/" then p else cwd ++ "/" ++ p
  let segs := (splitChar '/' joined.data).filter (fun seg => seg ≠ [] && seg ≠ ['.'])
  ⟨'/' :: (segs.intersperse ['/']).flatten⟩

/-- `Runtime.get_named_semaphore` (runtime.py:213-234): normalize directory
keys, return the existing semaphore for the key or create and register a new
`Semaphore(count)`.  Returns the (possibly grown) table and the semaphore's
object id. -/
def get_named_semaphore (cwd : String) (st : SemaphoreTable) (lock_name : String)
    (is_dir : Bool) (count : Nat) : SemaphoreTable × Nat :=
  let p := if is_dir then "_dir::" ++ pathAbsolute cwd lock_name else lock_name
  match lookupEntry st.entries p with
  | some (id, _) => (st, id)
  | none =>
    ({ entries := st.entries ++ [(p, st.next_id, count)], next_id := st.next_id + 1 },
      st.next_id)

/-! ## Pooled koji sessions (`pooled_koji_client_session`, runtime.py:764-804)

`session_pool` and `session_pool_available` are insertion-ordered dicts from
slot id to session object; `dict.popitem()` removes the most recently inserted
entry, so `session_pool_available` behaves as a stack (modelled with the most
recent id at the head).  Sessions themselves are opaque; the only state the
code touches is each session's `force_instance_caching` flag, modelled as a
map from slot id to `Bool`.  All bookkeeping steps below happen under
`self.mutex` in the source; the sequential state passing models that
serialization. -/

structure SessionPoolState where
  /-- Slot ids allocated in `self.session_pool` (its key set, in order). -/
  session_pool : List Nat
  /-- Slot ids currently in `self.session_pool_available`, most recently
  returned first. -/
  session_pool_available : List Nat
  /-- `force_instance_caching` flag of each session object. -/
  force_instance_caching : Nat → Bool

/-- `time.sleep(5)` between retries (runtime.py:794). -/
def sessionPoolBackoff : Nat := 5

/-- Pool capacity (runtime.py:780). -/
def sessionPoolCapacity : Nat := 30

/-- One pass of the `while True` body under `self.mutex`: lease an available
session, else grow the pool if below capacity, else `none` (the caller
releases the mutex, sleeps `sessionPoolBackoff`, and retries from scratch). -/
def acquire_step (st : SessionPoolState) : Option (Nat × SessionPoolState) :=
  if st.session_pool_available.length = 0 then
    if st.session_pool.length < sessionPoolCapacity then
      -- build_retrying_koji_client(); session_id = len(self.session_pool)
      let session_id := st.session_pool.length
      some (session_id, { st with session_pool := st.session_pool ++ [session_id] })
    else none
  else
    match st.session_pool_available with
    | session_id :: rest =>
      some (session_id, { st with session_pool_available := rest })
    | [] => none

/-- The acquisition loop, with fuel bounding the number of retries (the source
loops until a session frees up).  Also returns the total time slept. -/
def acquire_loop : Nat → SessionPoolState → Nat → SessionPoolState × Option Nat × Nat
  | 0, st, slept => (st, none, slept)
  | fuel + 1, st, slept =>
    match acquire_step st with
    | some (session_id, st1) => (st1, some session_id, slept)
    | none => acquire_loop fuel st (slept + sessionPoolBackoff)

def setCaching (st : SessionPoolState) (session_id : Nat) (b : Bool) :
    SessionPoolState :=
  { st with force_instance_caching :=
      fun i => if i = session_id then b else st.force_instance_caching i }

/-- The `finally` block (runtime.py:800-804): reset the session's caching flag
and return it to the available dict under the mutex. -/
def release_session (st : SessionPoolState) (session_id : Nat) : SessionPoolState :=
  let st1 := setCaching st session_id false
  { st1 with session_pool_available := session_id :: st1.session_pool_available }

/-- `Runtime.pooled_koji_client_session` as a whole: acquire, set the caching
flag, run the caller's block (opaque; it either returns normally or raises,
modelled by an arbitrary `Except` value), then run the `finally` block either
way.  `none` means the fuel ran out while the pool was exhausted (the source
would still be sleeping and retrying). -/
def pooled_koji_client_session (fuel : Nat) (caching : Bool)
    (st : SessionPoolState) (body : Except String Unit) :
    Option (SessionPoolState × Nat × Except String Unit) :=
  match acquire_loop fuel st 0 with
  | (_, none, _) => none
  | (st1, some session_id, _) =>
    let st2 := setCaching st1 session_id caching
    some (release_session st2 session_id, session_id, body)

/-! ## Duplicate metadata and cycle detection (`initialize`)

The image parent/child graph.  `ImageMetadata` itself is in the image metadata
module which is not among the analyzed sources; per the spec, "each metadata
record's declared parent is resolved to build a forest", so an image is its
distgit key plus an optional resolved-parent key, and `children` are derived
from the parent pointers (in metadata order, matching the order
`resolve_parent` appends them). -/

structure ImageMeta where
  distgit_key : String
  parent : Option String
deriving DecidableEq

/-- The `children` list of the image with key `k` (derived from the parent
pointers of all loaded images, in load order). -/
def childrenOf (allImages : List ImageMeta) (k : String) : List String :=
  (allImages.filter (fun m => m.parent = some k)).map (fun m => m.distgit_key)

/-- The resolved parent key of `k` among the loaded images. -/
def parentOf (allImages : List ImageMeta) (k : String) : Option String :=
  match allImages.find? (fun m => m.distgit_key = k) with
  | some m => m.parent
  | none => none

/-- Modelled from the spec: `ImageMetadata.is_ancestor` lives in the image
metadata module, not among the analyzed sources.  Per the spec, cycle
detection "walks each node's descendants and raises a fatal error if a node is
found to be its own ancestor"; `is_ancestor allImages fuel a b` walks `a`'s
parent chain looking for `b`. -/
def is_ancestor (allImages : List ImageMeta) : Nat → String → String → Bool
  | 0, _, _ => false
  | fuel + 1, a, b =>
    match parentOf allImages a with
    | none => false
    | some p => p = b || is_ancestor allImages fuel p b

/-- The cycle check of `Runtime.initialize` (runtime.py:632-636): for each
image, for each of its children, raise on the first child that is also an
ancestor of the image. -/
def check_image_cycles (allImages : List ImageMeta) : Except String Unit :=
  go allImages
where
  go : List ImageMeta → Except String Unit
    | [] => .ok ()
    | image :: rest =>
      match (childrenOf allImages image.distgit_key).find?
          (fun child => is_ancestor allImages allImages.length image.distgit_key child) with
      | some child =>
        .error (child ++ " cannot be both a parent and dependent of " ++ image.distgit_key)
      | none => go rest

/-- One record of the pre-loaded image name data (runtime.py:588-600): distgit
key, the slash-qualified `name`, and the optional explicit `name_in_bundle`. -/
structure ImageNameRecord where
  key : String
  name : String
  name_in_bundle : Option String
deriving DecidableEq

def lookupStr (m : List (String × String)) (k : String) : Option String :=
  match m with
  | [] => none
  | (k2, v) :: rest => if k2 = k then some v else lookupStr rest k

/-- `Runtime.initialize._register_name_in_bundle` (runtime.py:583-586): raise
on the first alias collision, else record the alias. -/
def register_name_in_bundle (m : List (String × String)) (name_in_bundle key : String) :
    Except String (List (String × String)) :=
  match lookupStr m name_in_bundle with
  | some existing =>
    .error ("Image " ++ key ++ " has name_in_bundle=" ++ name_in_bundle
      ++ ", which is already taken by image " ++ existing)
  | none => .ok (m ++ [(name_in_bundle, key)])

/-- The "name in bundle" aliases one record contributes (runtime.py:593-600):
the explicit `name_in_bundle` if truthy, else the short name without any
`ose-` and with `ose-` prepended. -/
def bundleAliasesOf (r : ImageNameRecord) : List String :=
  let short_name : String := ⟨(splitChar '/' r.name.data).getD 1 []⟩
  if optStrTruthy r.name_in_bundle then [r.name_in_bundle.getD ""]
  else
    let short_name_without_ose :=
      if strStartsWith short_name "ose-" then strDropChars short_name 4 else short_name
    [short_name_without_ose, "ose-" ++ short_name_without_ose]

/-- The name-registration loop of `Runtime.initialize` (runtime.py:588-600),
restricted to the fallible `name_in_bundle` bookkeeping (the `image_name_map`
inserts on lines 591-592 have no error path and are omitted).  Returns the
final `name_in_bundle_map` or the first collision error. -/
def registerAliasList (key : String) :
    List String → List (String × String) → Except String (List (String × String))
  | [], m => .ok m
  | a :: rest, m =>
    match register_name_in_bundle m a key with
    | .error e => .error e
    | .ok m1 => registerAliasList key rest m1

def register_image_names (records : List ImageNameRecord) :
    Except String (List (String × String)) :=
  go records []
where
  go : List ImageNameRecord → List (String × String) → Except String (List (String × String))
    | [], m => .ok m
    | r :: rest, m =>
      match registerAliasList r.key (bundleAliasesOf r) m with
      | .error e => .error e
      | .ok m1 => go rest m1

/-- The identity of one loaded component for the duplicate check
(runtime.py:651-658): namespace, name, branch, and the metadata file it was
loaded from. -/
structure MetaKeyInfo where
  nspace : String
  name : String
  branch : String
  config_filename : String
deriving DecidableEq

def metaKey (m : MetaKeyInfo) : String :=
  m.nspace ++ "/" ++ m.name ++ "/#" ++ m.branch

/-- The duplicate distgit & branch check of `Runtime.initialize`
(runtime.py:651-658): raise on the first `(namespace, name, branch)` collision. -/
def duplicate_distgit_check (metas : List MetaKeyInfo) : Except String Unit :=
  go metas []
where
  go : List MetaKeyInfo → List (String × String) → Except String Unit
    | [], _ => .ok ()
    | meta :: rest, no_collide_check =>
      let key := metaKey meta
      match lookupStr no_collide_check key with
      | some existing_filename =>
        .error ("Complete duplicate distgit & branch; something wrong with metadata: "
          ++ key ++ " from " ++ meta.config_filename ++ " and " ++ existing_filename)
      | none => go rest (no_collide_check ++ [(key, meta.config_filename)])

/-! ## Build order (`generate_image_tree`, runtime.py:857-883)

`image_lists` is a dict from level number to the list of distgit keys placed
at that level; its keys are created contiguously from 0 upward, so it is
modelled as a `List (List String)` indexed by level (`[[]]` is the initial
`{0: []}`, and "create the level if absent" pads with empty levels).  The
nested `image_tree` dict built alongside records the same traversal as a tree
of dicts and does not influence `image_order`; it is not modelled.  The
recursion of `add_child_branch` is unbounded in the source (it terminates
because the cycle check ran first); it is embedded with fuel, and the proved
properties hold for every fuel value. -/

abbrev Levels := List (List String)

def getLevel (ls : Levels) (i : Nat) : List String :=
  ls.getD i []

/-- `if level not in image_lists: image_lists[level] = []` (levels are created
contiguously, so absence means padding up to `level`). -/
def ensureLevel (ls : Levels) (level : Nat) : Levels :=
  if level < ls.length then ls else ls ++ List.replicate (level + 1 - ls.length) []

/-- `image_lists[level].append(x)`. -/
def appendAt (ls : Levels) (level : Nat) (x : String) : Levels :=
  let ls1 := ensureLevel ls level
  ls1.set level (getLevel ls1 level ++ [x])

/-- `add_child_branch(child, branch, level)` (runtime.py:861-869), restricted
to its effect on `image_lists`: ensure the level exists, then for each child
still present in `image_map`, record it at this level and recurse one level
deeper. -/
def add_child_branch (allImages : List ImageMeta) (mapKeys : List String) :
    Nat → String → Nat → Levels → Levels
  | 0, _, _, lists => lists
  | fuel + 1, child, level, lists =>
    let lists1 := ensureLevel lists level
    (childrenOf allImages child).foldl
      (fun acc sub_child =>
        if sub_child ∈ mapKeys then
          add_child_branch allImages mapKeys fuel sub_child (level + 1)
            (appendAt acc level sub_child)
        else acc)
      lists1

/-- `if i not in self.image_order: self.image_order.append(i)`. -/
def dedupAppend (image_order : List String) (i : String) : List String :=
  if i ∈ image_order then image_order else image_order ++ [i]

def flattenFrom (lists : Levels) (image_order : List String) : List String :=
  lists.foldl (fun order lvl => lvl.foldl dedupAppend order) image_order

/-- The `image_lists` dict as `generate_image_tree` leaves it: each parentless
image of `image_map` is placed at level 0 and its subtree walked from level 1.
`allImages` are the loaded images whose resolved parent pointers define the
`children` lists; `imageMap` is the current `image_map` (after any
`filter_failed_image_trees` deletions). -/
def image_lists_of (allImages imageMap : List ImageMeta) : Levels :=
  imageMap.foldl
    (fun acc image =>
      if image.parent = none then
        add_child_branch allImages (imageMap.map (fun m => m.distgit_key))
          (allImages.length + 1) image.distgit_key 1
          (appendAt acc 0 image.distgit_key)
      else acc)
    ([[]] : Levels)

/-- `Runtime.generate_image_tree` (runtime.py:857-883), returning the computed
`self.image_order`: build the level lists, then concatenate them in ascending
level order, skipping keys already placed. -/
def generate_image_tree (allImages imageMap : List ImageMeta) : List String :=
  flattenFrom (image_lists_of allImages imageMap) []

/-- The invariant the traversal maintains on `image_lists`: everything placed
at level `i + 1` is a child of something placed at level `i`. -/
def parentOk (allImages : List ImageMeta) (ls : Levels) : Prop :=
  ∀ i x, x ∈ getLevel ls (i + 1) →
    ∃ p, p ∈ getLevel ls i ∧ x ∈ childrenOf allImages p

/-! ## Helper lemmas -/

theorem isPrefixOfList_append_self :
    ∀ l t : List Char, isPrefixOfList l (l ++ t) = true := by
  intro l t
  induction l with
  | nil => rfl
  | cons a as ih => simp [isPrefixOfList, ih]

theorem listInfix_of_isPrefixOfList (b x : List Char)
    (h : isPrefixOfList b x = true) : listInfix b x = true := by
  cases x with
  | nil => simpa [listInfix] using h
  | cons a as => simp [listInfix, h]

theorem listInfix_append_left (b : List Char) :
    ∀ pre x : List Char, listInfix b x = true → listInfix b (pre ++ x) = true := by
  intro pre
  induction pre with
  | nil => intro x h; simpa using h
  | cons a as ih =>
    intro x h
    simp only [List.cons_append, listInfix, Bool.or_eq_true]
    exact Or.inr (ih x h)

/-- A middle chunk is always contained: `strContains (a ++ b ++ c) b`. -/
theorem strContains_middle (a b c : String) :
    strContains (a ++ b ++ c) b = true := by
  show listInfix b.data (a ++ b ++ c).data = true
  have hdata : (a ++ b ++ c).data = a.data ++ (b.data ++ c.data) := by
    simp [String.data_append, List.append_assoc]
  rw [hdata]
  exact listInfix_append_left _ _ _
    (listInfix_of_isPrefixOfList _ _ (isPrefixOfList_append_self _ _))

theorem hexDigit_not_space {c : Char} (h : isHexDigitChar c = true) :
    isPySpace c = false := by
  by_contra hs
  rw [Bool.not_eq_false] at hs
  simp only [isPySpace, Bool.or_eq_true, decide_eq_true_eq] at hs
  rw [or_assoc, or_assoc, or_assoc, or_assoc] at hs
  rcases hs with h1 | h1 | h1 | h1 | h1 | h1 <;> subst h1 <;> exact absurd h (by decide)

theorem dropWhile_space_of_allhex (l : List Char)
    (h : ∀ c ∈ l, isHexDigitChar c = true) : l.dropWhile isPySpace = l := by
  cases l with
  | nil => rfl
  | cons a as =>
    rw [List.dropWhile_cons, hexDigit_not_space (h a (by simp))]
    simp

theorem stripPySpace_of_allhex (l : List Char)
    (h : ∀ c ∈ l, isHexDigitChar c = true) : stripPySpace l = l := by
  unfold stripPySpace
  rw [dropWhile_space_of_allhex l h, dropWhile_space_of_allhex l.reverse
    (by intro c hc; exact h c (List.mem_reverse.mp hc)), List.reverse_reverse]

theorem hexDigitsTail_of_allhex :
    ∀ l : List Char, (∀ c ∈ l, isHexDigitChar c = true) → hexDigitsTail l = true := by
  intro l
  induction l with
  | nil => intro _; rfl
  | cons c rest ih =>
    intro h
    have hc : isHexDigitChar c = true := h c (by simp)
    have hcne : ¬(c = '_') := by
      intro he; subst he; exact absurd hc (by decide)
    rw [hexDigitsTail.eq_def]
    simp only [if_neg hcne, hc, Bool.true_and]
    exact ih (fun x hx => h x (by simp [hx]))

theorem hexDigits_of_allhex (l : List Char) (hne : l ≠ [])
    (h : ∀ c ∈ l, isHexDigitChar c = true) : hexDigits l = true := by
  cases l with
  | nil => exact absurd rfl hne
  | cons c rest =>
    simp only [hexDigits, h c (by simp), Bool.true_and]
    exact hexDigitsTail_of_allhex rest (fun x hx => h x (by simp [hx]))

theorem hexBody_of_allhex (l : List Char) (hne : l ≠ [])
    (h : ∀ c ∈ l, isHexDigitChar c = true) : hexBody l = true := by
  match l with
  | [] => exact absurd rfl hne
  | [c] => exact hexDigits_of_allhex [c] (by simp) h
  | c0 :: c1 :: rest =>
    have hc1 : isHexDigitChar c1 = true := h c1 (by simp)
    have hx : ¬(c1 = 'x') := by intro he; subst he; exact absurd hc1 (by decide)
    have hX : ¬(c1 = 'X') := by intro he; subst he; exact absurd hc1 (by decide)
    have hcond : (c0 = '0' && (c1 = 'x' || c1 = 'X')) = false := by
      simp [hx, hX]
    simp only [hexBody, hcond, Bool.false_eq_true, if_false]
    exact hexDigits_of_allhex _ (by simp) h

theorem pyIntHexValid_of_allhex (s : String) (hne : s.data ≠ [])
    (h : ∀ c ∈ s.data, isHexDigitChar c = true) : pyIntHexValid s = true := by
  unfold pyIntHexValid
  rw [stripPySpace_of_allhex s.data h]
  match hm : s.data with
  | [] => exact absurd hm hne
  | c :: rest =>
    have hc : isHexDigitChar c = true := h c (by rw [hm]; simp)
    have hplus : ¬(c = '+') := by intro he; subst he; exact absurd hc (by decide)
    have hminus : ¬(c = '-') := by intro he; subst he; exact absurd hc (by decide)
    have hcond : (c = '+' || c = '-') = false := by simp [hplus, hminus]
    simp only [hcond, Bool.false_eq_true, if_false]
    exact hexBody_of_allhex (c :: rest) (by simp) (by rw [← hm]; exact h)

theorem is_branch_commit_hash_of_allhex (s : String) (hlen : strLen s ≥ 7)
    (h : ∀ c ∈ s.data, isHexDigitChar c = true) : is_branch_commit_hash s = true := by
  unfold is_branch_commit_hash
  rw [if_pos hlen]
  refine pyIntHexValid_of_allhex s ?_ h
  intro he
  rw [strLen, he] at hlen
  exact absurd hlen (by decide)

/-! ## Claim theorems -/

/-- Claim C7: `get_public_upstream("git@github.com:org/priv.git")`, with the
single rule mapping private prefix `git@github.com:org` to public prefix
`https://example.com/pub`, returns the URL `https://example.com/pub/priv`. -/
theorem get_public_upstream_example :
    (get_public_upstream [⟨"git@github.com:org", "https://example.com/pub", none⟩]
      "git@github.com:org/priv.git").1 = "https://example.com/pub/priv" := by decide

/-- Claim C1 (code bug): the selection loop is documented as keeping "the
longest matching private remote", but compares the candidate's private length
against the current match's *public* length (runtime.py:1172), so the rule
with the strictly longer private prefix can lose.  Here both rules match the
remote URL, the second rule's private prefix is strictly longer, yet the first
rule is applied (the longest-private-match substitution would have produced
`https://pub-b`). -/
theorem get_public_upstream_longest_match_bug :
    (strStartsWith "https://github.com/org/priv" ("https://github.com/org" ++ "/") = true) ∧
    (strLen "https://github.com/org/priv" > strLen "https://github.com/org") ∧
    (get_public_upstream
      [⟨"https://github.com/org", "https://a-public-replacement-much-longer-than-both", none⟩,
       ⟨"https://github.com/org/priv", "https://pub-b", none⟩]
      "https://github.com/org/priv"
      = ("https://a-public-replacement-much-longer-than-both/priv", none)) ∧
    (get_public_upstream
      [⟨"https://github.com/org", "https://a-public-replacement-much-longer-than-both", none⟩,
       ⟨"https://github.com/org/priv", "https://pub-b", none⟩]
      "https://github.com/org/priv").1 ≠ "https://pub-b" := by
  refine ⟨by decide, by decide, by decide, by decide⟩

/-- Claim C8: with assembly mode enabled (by the group config flag, the CLI
override, or both), `initialize` accepts the assembly names `4.14` and
`my_release` and raises the validation `ValueError` for `.foo`, `foo.` and
`foo/bar`; acceptance is exactly "fullmatch `[\w.]+` and neither first nor
last character is a dot". -/
theorem initialize_assembly_validation :
    (∀ g c : Bool, (g || c) = true →
      initialize_assembly g c "4.14" = .ok (some "4.14") ∧
      initialize_assembly g c "my_release" = .ok (some "my_release") ∧
      initialize_assembly g c ".foo" = .error "Assembly names may only consist of alphanumerics, ., and _, but not start or end with a dot (.)." ∧
      initialize_assembly g c "foo." = .error "Assembly names may only consist of alphanumerics, ., and _, but not start or end with a dot (.)." ∧
      initialize_assembly g c "foo/bar" = .error "Assembly names may only consist of alphanumerics, ., and _, but not start or end with a dot (.).") ∧
    (∀ s : String,
      initialize_assembly true false s = .ok (some s) ↔
        (fullmatchWordDot s = true ∧ s.data.headD ' ' ≠ '.' ∧ s.data.getLastD ' ' ≠ '.')) := by
  constructor
  · intro g c hgc
    cases g <;> cases c
    · exact absurd hgc (by decide)
    all_goals exact ⟨rfl, rfl, rfl, rfl, rfl⟩
  · intro s
    simp only [initialize_assembly, Bool.true_or, if_true]
    by_cases h : assembly_name_ok s = true
    · rw [if_pos h]
      have h2 : fullmatchWordDot s = true ∧ s.data.headD ' ' ≠ '.' ∧ s.data.getLastD ' ' ≠ '.' := by
        simpa [assembly_name_ok, Bool.and_eq_true, Bool.not_eq_true',
          decide_eq_false_iff_not, and_assoc] using h
      simp only [Except.ok.injEq, Option.some.injEq, true_iff, iff_true]
      exact h2
    · rw [if_neg h]
      constructor
      · intro hcontra; exact absurd hcontra (by simp)
      · intro hrhs
        exfalso
        apply h
        simp only [assembly_name_ok, Bool.and_eq_true, Bool.not_eq_true',
          decide_eq_false_iff_not]
        exact ⟨⟨hrhs.1, hrhs.2.1⟩, hrhs.2.2⟩

/-- Claim C10: `is_branch_commit_hash` returns `True` for branch strings of
length ≥ 7 containing characters outside `0-9a-fA-F` — a leading `+` or `-`
sign, a `0x`/`0X` prefix, embedded underscores, surrounding whitespace —
because it decides by whether Python's `int(branch, 16)` parses; and every
branch it accepts is returned by `detect_remote_source_branch` as a
commit-ish with no remote branch-existence lookup (absent a stage override
and the forced-fallback mode, the paths on which the branch value never
reaches the commit-ish test). -/
theorem is_branch_commit_hash_accepts_nonhex :
    (is_branch_commit_hash "+abcdef0" = true
      ∧ ("+abcdef0" : String).data.all isHexDigitChar = false) ∧
    (is_branch_commit_hash "-abcdef0" = true
      ∧ ("-abcdef0" : String).data.all isHexDigitChar = false) ∧
    (is_branch_commit_hash "0xabcdef" = true
      ∧ ("0xabcdef" : String).data.all isHexDigitChar = false) ∧
    (is_branch_commit_hash "0Xabcdef" = true
      ∧ ("0Xabcdef" : String).data.all isHexDigitChar = false) ∧
    (is_branch_commit_hash "abc_def0" = true
      ∧ ("abc_def0" : String).data.all isHexDigitChar = false) ∧
    (is_branch_commit_hash " abcdef0\t" = true
      ∧ (" abcdef0\t" : String).data.all isHexDigitChar = false) ∧
    (∀ (use_fb git_url : String) (ls_remote : String → Option String)
        (branches : SourceBranchConfig),
      is_branch_commit_hash branches.target = true →
      ¬(use_fb = "always" ∧ optStrTruthy branches.fallback = true) →
      detect_remote_source_branch use_fb false git_url ls_remote branches
        = (.ok (branches.target, branches.target), [])) := by
  refine ⟨⟨by decide, by decide⟩, ⟨by decide, by decide⟩, ⟨by decide, by decide⟩,
    ⟨by decide, by decide⟩, ⟨by decide, by decide⟩, ⟨by decide, by decide⟩, ?_⟩
  intro use_fb git_url ls_remote branches hhash hexcl
  have hexcl2 : (use_fb = "always" ∧ optStrTruthy branches.fallback = true) ↔ False :=
    iff_false_intro hexcl
  have hnone : optStrTruthy (none : Option String) = false := rfl
  by_cases hn : use_fb = "never" <;>
    simp [detect_remote_source_branch, hexcl2, hn, hnone, hhash]

/-- Claim C4 (counterexample): with `use_source_fallback_branch: always` and a
configured fallback branch, a target branch of 7 hex characters is not treated
as a commit-ish: the fallback replaces the target before the commit-ish test
(runtime.py:1381-1383), a remote lookup is performed, and the fallback is
returned instead of the target. -/
theorem detect_hex_commit_counterexample :
    strLen "abcdef0" ≥ 7 ∧
    ("abcdef0" : String).data.all isHexDigitChar = true ∧
    detect_remote_source_branch "always" false "https://example.com/r"
        (fun b => if b = "main" then some "abc1234 refs/heads/main" else some "")
        ⟨"abcdef0", some "main", none⟩
      = (.ok ("main", "abc1234"), ["main"]) ∧
    ("main" : String) ≠ "abcdef0" ∧ (["main"] ≠ ([] : List String)) :=
  ⟨by decide, by decide, rfl, by decide, by decide⟩

/-- Claim C4 (amended): for every target branch of length ≥ 7 consisting of
hex characters, `detect_remote_source_branch` with no active stage-branch
override — and provided the group config does not force the fallback branch
(`use_source_fallback_branch: always` with a configured fallback replaces the
target before the commit-ish test) — treats the target as a commit-ish and
returns it without performing any remote branch-existence lookup. -/
theorem detect_remote_source_branch_hex_commit
    (use_fb git_url : String) (stage_flag : Bool) (ls_remote : String → Option String)
    (branches : SourceBranchConfig)
    (hhex : ∀ c ∈ branches.target.data, isHexDigitChar c = true)
    (hlen : strLen branches.target ≥ 7)
    (hstage : optStrTruthy (if stage_flag then branches.stage else none) = false)
    (hexcl : ¬(use_fb = "always" ∧ optStrTruthy branches.fallback = true)) :
    detect_remote_source_branch use_fb stage_flag git_url ls_remote branches
      = (.ok (branches.target, branches.target), []) := by
  have hhash : is_branch_commit_hash branches.target = true :=
    is_branch_commit_hash_of_allhex _ hlen hhex
  have hexcl2 : (use_fb = "always" ∧ optStrTruthy branches.fallback = true) ↔ False :=
    iff_false_intro hexcl
  by_cases hn : use_fb = "never" <;>
    simp [detect_remote_source_branch, hexcl2, hn, hstage, hhash]

/-- Claim C5 (counterexample): with target branch `release-4.14` and fallback
branch `main` both absent from the remote, `detect_remote_source_branch` fails
fatally, but the error message names only the target branch (mislabelling it
as the fallback branch, runtime.py:1409); the fallback candidate `main` does
not appear in the message. -/
theorem detect_fallback_error_counterexample :
    detect_remote_source_branch "" false "https://example.com/r" (fun _ => some "")
        ⟨"release-4.14", some "main", none⟩
      = (.error "Requested fallback branch release-4.14 does not exist",
         ["release-4.14", "main"]) ∧
    strContains "Requested fallback branch release-4.14 does not exist" "main" = false :=
  ⟨rfl, by decide⟩

/-- Claim C5 (amended): when the target branch is not found on the remote and
the configured fallback branch is also not found, `detect_remote_source_branch`
fails fatally with an error message that names only the *target* branch
(formatted into a sentence describing it as the fallback branch); the fallback
branch's name is not part of the message. -/
theorem detect_remote_source_branch_fallback_error
    (use_fb git_url : String) (stage_flag : Bool) (ls_remote : String → Option String)
    (branches : SourceBranchConfig) (fb : String)
    (hstage : optStrTruthy (if stage_flag then branches.stage else none) = false)
    (ha : use_fb ≠ "always") (hn : use_fb ≠ "never")
    (hfb : branches.fallback = some fb) (hfbne : fb ≠ "")
    (hnothash : is_branch_commit_hash branches.target = false)
    (h1 : get_remote_branch_ref ls_remote branches.target = none)
    (h2 : get_remote_branch_ref ls_remote fb = none) :
    detect_remote_source_branch use_fb stage_flag git_url ls_remote branches
      = (.error ("Requested fallback branch " ++ branches.target ++ " does not exist"),
         [branches.target, fb]) ∧
    strContains ("Requested fallback branch " ++ branches.target ++ " does not exist")
      branches.target = true := by
  constructor
  · have htr : optStrTruthy branches.fallback = true := by
      rw [hfb]; simpa [optStrTruthy] using hfbne
    have hft2 : optStrTruthy (some fb) = true := by simp [optStrTruthy, hfbne]
    simp [detect_remote_source_branch, ha, hn, hstage, hnothash, h1, h2, hfb, hft2]
  · exact strContains_middle "Requested fallback branch " branches.target
      " does not exist"

theorem lookupEntry_append_none (l : List (String × Nat × Nat)) (p : String)
    (v : Nat × Nat) (h : lookupEntry l p = none) :
    lookupEntry (l ++ [(p, v)]) p = some v := by
  induction l with
  | nil => simp [lookupEntry]
  | cons e rest ih =>
    rw [lookupEntry] at h
    by_cases he : e.1 = p
    · rw [if_pos he] at h; exact absurd h (by simp)
    · rw [if_neg he] at h
      show lookupEntry ((e.1, e.2) :: (rest ++ [(p, v)])) p = some v
      rw [lookupEntry, if_neg he]
      exact ih h

/-- Claim C9: for every key, every call to `get_named_semaphore` after the
first returns the identical semaphore object (and leaves the registry
unchanged); and in directory mode the path spellings `/tmp/x/` and `/tmp/x`
normalize to the same key, so acquisition through either returns the identical
lock instance. -/
theorem get_named_semaphore_identical :
    (∀ (cwd : String) (st : SemaphoreTable) (k : String) (d : Bool) (c1 c2 : Nat),
      get_named_semaphore cwd (get_named_semaphore cwd st k d c1).1 k d c2
        = ((get_named_semaphore cwd st k d c1).1, (get_named_semaphore cwd st k d c1).2)) ∧
    (∀ (cwd : String) (st : SemaphoreTable) (c1 c2 : Nat),
      get_named_semaphore cwd (get_named_semaphore cwd st "/tmp/x/" true c1).1 "/tmp/x" true c2
        = ((get_named_semaphore cwd st "/tmp/x/" true c1).1,
           (get_named_semaphore cwd st "/tmp/x/" true c1).2)) := by
  constructor
  · intro cwd st k d c1 c2
    unfold get_named_semaphore
    cases hl : lookupEntry st.entries (if d = true then "_dir::" ++ pathAbsolute cwd k else k) with
    | some v =>
      cases v with
      | mk id cnt => simp [hl]
    | none => simp [hl, lookupEntry_append_none _ _ _ hl]
  · intro cwd st c1 c2
    have hpath : pathAbsolute cwd "/tmp/x/" = pathAbsolute cwd "/tmp/x" := rfl
    unfold get_named_semaphore
    rw [hpath]
    cases hl : lookupEntry st.entries ("_dir::" ++ pathAbsolute cwd "/tmp/x") with
    | some v =>
      cases v with
      | mk id cnt => simp [hl]
    | none => simp [hl, lookupEntry_append_none _ _ _ hl]

theorem acquire_step_pool_bound (st : SessionPoolState)
    (h : st.session_pool.length ≤ sessionPoolCapacity) (sid : Nat)
    (st1 : SessionPoolState) (hs : acquire_step st = some (sid, st1)) :
    st1.session_pool.length ≤ sessionPoolCapacity := by
  unfold acquire_step at hs
  by_cases hav : st.session_pool_available.length = 0
  · rw [if_pos hav] at hs
    by_cases hlt : st.session_pool.length < sessionPoolCapacity
    · rw [if_pos hlt] at hs
      cases hs
      simpa using hlt
    · rw [if_neg hlt] at hs
      exact absurd hs (by simp)
  · rw [if_neg hav] at hs
    cases hm : st.session_pool_available with
    | nil => rw [hm] at hav; exact absurd rfl hav
    | cons a rest =>
      rw [hm] at hs
      cases hs
      simpa using h

theorem acquire_loop_pool_bound :
    ∀ (fuel : Nat) (st : SessionPoolState) (slept : Nat),
      st.session_pool.length ≤ sessionPoolCapacity →
      (acquire_loop fuel st slept).1.session_pool.length ≤ sessionPoolCapacity := by
  intro fuel
  induction fuel with
  | zero => intro st slept h; exact h
  | succ n ih =>
    intro st slept h
    rw [acquire_loop]
    cases hs : acquire_step st with
    | some v =>
      cases v with
      | mk sid st1 => exact acquire_step_pool_bound st h sid st1 hs
    | none => exact ih st (slept + sessionPoolBackoff) h

/-- Claim C6: the koji session pool never grows beyond its fixed capacity of
30; when no session is available and the pool is full, one retry round of the
acquisition loop sleeps exactly the fixed 5-unit backoff and re-runs the whole
decision from scratch; and whatever the caller's block does (normal return or
exception), the leased session's caching flag is reset to `False` and the
session is back in the available set afterwards. -/
theorem pooled_koji_client_session_contract :
    sessionPoolCapacity = 30 ∧ sessionPoolBackoff = 5 ∧
    (∀ (fuel : Nat) (st : SessionPoolState) (slept : Nat),
      st.session_pool.length ≤ sessionPoolCapacity →
      (acquire_loop fuel st slept).1.session_pool.length ≤ sessionPoolCapacity) ∧
    (∀ st : SessionPoolState, st.session_pool_available = [] →
      st.session_pool.length = sessionPoolCapacity →
      ∀ fuel slept,
        acquire_loop (fuel + 1) st slept = acquire_loop fuel st (slept + sessionPoolBackoff)) ∧
    (∀ (fuel : Nat) (caching : Bool) (st : SessionPoolState) (body : Except String Unit)
        (st' : SessionPoolState) (sid : Nat) (r : Except String Unit),
      pooled_koji_client_session fuel caching st body = some (st', sid, r) →
      st'.force_instance_caching sid = false ∧ sid ∈ st'.session_pool_available ∧
      r = body ∧
      (st.session_pool.length ≤ sessionPoolCapacity →
        st'.session_pool.length ≤ sessionPoolCapacity)) := by
  refine ⟨rfl, rfl, acquire_loop_pool_bound, ?_, ?_⟩
  · intro st hav hcap fuel slept
    rw [acquire_loop]
    have hs : acquire_step st = none := by
      unfold acquire_step
      rw [if_pos (by rw [hav]; rfl), if_neg (by rw [hcap]; exact lt_irrefl _)]
    rw [hs]
  · intro fuel caching st body st' sid r h
    unfold pooled_koji_client_session at h
    cases hal : acquire_loop fuel st 0 with
    | mk st1 rest =>
      rw [hal] at h
      cases rest with
      | mk osid n =>
        cases osid with
        | none => exact absurd h (by simp)
        | some sid1 =>
          simp only [Option.some.injEq, Prod.mk.injEq] at h
          obtain ⟨h1, h2, h3⟩ := h
          subst h1; subst h2; subst h3
          refine ⟨?_, ?_, rfl, ?_⟩
          · simp [release_session, setCaching]
          · simp [release_session, setCaching]
          · intro hcap
            have hb := acquire_loop_pool_bound fuel st 0 hcap
            rw [hal] at hb
            simpa [release_session, setCaching] using hb

theorem lookupStr_append_single (m : List (String × String)) (k k2 v : String) :
    lookupStr (m ++ [(k, v)]) k2 = none ↔ (lookupStr m k2 = none ∧ ¬(k = k2)) := by
  induction m with
  | nil =>
    by_cases h : k = k2
    · simp [lookupStr, h]
    · simp [lookupStr, h]
  | cons e rest ih =>
    cases e with
    | mk ek ev =>
      by_cases h : ek = k2
      · simp [lookupStr, h]
      · simp only [List.cons_append, lookupStr, if_neg h]
        exact ih

theorem duplicate_distgit_go_iff :
    ∀ (metas : List MetaKeyInfo) (acc : List (String × String)),
      duplicate_distgit_check.go metas acc = .ok () ↔
        ((metas.map metaKey).Nodup ∧ ∀ m ∈ metas, lookupStr acc (metaKey m) = none) := by
  intro metas
  induction metas with
  | nil => intro acc; simp [duplicate_distgit_check.go]
  | cons m rest ih =>
    intro acc
    simp only [duplicate_distgit_check.go]
    cases hl : lookupStr acc (metaKey m) with
    | some e =>
      constructor
      · intro h; exact absurd h (by simp)
      · rintro ⟨-, hall⟩
        have hm := hall m (by simp)
        rw [hl] at hm
        exact absurd hm (by simp)
    | none =>
      rw [ih]
      constructor
      · rintro ⟨hnd, hall⟩
        refine ⟨?_, ?_⟩
        · rw [List.map_cons, List.nodup_cons]
          refine ⟨?_, hnd⟩
          intro hmem
          rcases List.mem_map.mp hmem with ⟨r, hr, hkey⟩
          have h2 := hall r hr
          rw [lookupStr_append_single] at h2
          exact h2.2 hkey.symm
        · intro r hr
          rcases List.mem_cons.mp hr with h | h
          · rw [h]; exact hl
          · exact ((lookupStr_append_single _ _ _ _).mp (hall r h)).1
      · rintro ⟨hnd, hall⟩
        rw [List.map_cons, List.nodup_cons] at hnd
        refine ⟨hnd.2, ?_⟩
        intro r hr
        rw [lookupStr_append_single]
        refine ⟨hall r (by simp [hr]), ?_⟩
        intro hkey
        exact hnd.1 (hkey ▸ List.mem_map_of_mem metaKey hr)

theorem lookupStr_none_iff (m : List (String × String)) (k : String) :
    lookupStr m k = none ↔ k ∉ m.map Prod.fst := by
  induction m with
  | nil => simp [lookupStr]
  | cons e rest ih =>
    cases e with
    | mk ek ev =>
      by_cases h : ek = k
      · simp [lookupStr, h]
      · simp only [lookupStr, if_neg h, List.map_cons, List.mem_cons]
        rw [ih]
        constructor
        · intro hn hor
          rcases hor with hor | hor
          · exact h hor.symm
          · exact hn hor
        · intro hn hmem
          exact hn (Or.inr hmem)

theorem registerAliasList_spec (key : String) :
    ∀ (aliases : List String) (m : List (String × String)),
      (∃ m2, registerAliasList key aliases m = .ok m2) ↔
        (aliases.Nodup ∧ ∀ a ∈ aliases, a ∉ m.map Prod.fst) := by
  intro aliases
  induction aliases with
  | nil => intro m; simp [registerAliasList]
  | cons a rest ih =>
    intro m
    simp only [registerAliasList, register_name_in_bundle]
    cases hl : lookupStr m a with
    | some e =>
      constructor
      · rintro ⟨m2, hm2⟩; exact absurd hm2 (by simp)
      · rintro ⟨-, hall⟩
        have := (lookupStr_none_iff m a).mpr (hall a (by simp))
        rw [hl] at this
        exact absurd this (by simp)
    | none =>
      rw [ih]
      have hmap : (m ++ [(a, key)]).map Prod.fst = m.map Prod.fst ++ [a] := by simp
      constructor
      · rintro ⟨hnd, hall⟩
        refine ⟨?_, ?_⟩
        · rw [List.nodup_cons]
          refine ⟨?_, hnd⟩
          intro hmem
          have h2 := hall a hmem
          rw [hmap] at h2
          exact h2 (by simp)
        · intro x hx
          rcases List.mem_cons.mp hx with h | h
          · rw [h]; exact (lookupStr_none_iff m a).mp hl
          · have h2 := hall x h
            rw [hmap] at h2
            intro hc
            exact h2 (by simp [hc])
      · rintro ⟨hnd, hall⟩
        rw [List.nodup_cons] at hnd
        refine ⟨hnd.2, ?_⟩
        intro x hx
        rw [hmap]
        intro hc
        rcases List.mem_append.mp hc with h | h
        · exact hall x (by simp [hx]) h
        · rcases List.mem_singleton.mp h with h2
          exact hnd.1 (h2 ▸ hx)

theorem registerAliasList_keys (key : String) :
    ∀ (aliases : List String) (m m2 : List (String × String)),
      registerAliasList key aliases m = .ok m2 →
      m2.map Prod.fst = m.map Prod.fst ++ aliases := by
  intro aliases
  induction aliases with
  | nil =>
    intro m m2 h
    simp only [registerAliasList] at h
    cases h
    simp
  | cons a rest ih =>
    intro m m2 h
    simp only [registerAliasList, register_name_in_bundle] at h
    cases hl : lookupStr m a with
    | some e => rw [hl] at h; exact absurd h (by simp)
    | none =>
      rw [hl] at h
      have h2 := ih (m ++ [(a, key)]) m2 h
      rw [h2]
      simp

theorem register_image_names_go_iff :
    ∀ (records : List ImageNameRecord) (m : List (String × String)),
      (∃ m2, register_image_names.go records m = .ok m2) ↔
        (((records.map bundleAliasesOf).flatten).Nodup ∧
          ∀ a ∈ (records.map bundleAliasesOf).flatten, a ∉ m.map Prod.fst) := by
  intro records
  induction records with
  | nil => intro m; simp [register_image_names.go]
  | cons r rest ih =>
    intro m
    simp only [register_image_names.go]
    cases hr : registerAliasList r.key (bundleAliasesOf r) m with
    | error e =>
      constructor
      · rintro ⟨m2, hm2⟩; exact absurd hm2 (by simp)
      · rintro ⟨hnd, hall⟩
        rw [List.map_cons, List.flatten_cons, List.nodup_append] at hnd
        have hok : ∃ m2, registerAliasList r.key (bundleAliasesOf r) m = .ok m2 := by
          rw [registerAliasList_spec]
          exact ⟨hnd.1, fun a ha => hall a (by simp [ha])⟩
        rcases hok with ⟨m2, hm2⟩
        rw [hr] at hm2
        exact absurd hm2 (by simp)
    | ok m1 =>
      rw [ih]
      have hkeys := registerAliasList_keys r.key (bundleAliasesOf r) m m1 hr
      have hspec := (registerAliasList_spec r.key (bundleAliasesOf r) m).mp ⟨m1, hr⟩
      rw [List.map_cons, List.flatten_cons, List.nodup_append]
      constructor
      · rintro ⟨hnd, hall⟩
        refine ⟨⟨hspec.1, hnd, ?_⟩, ?_⟩
        · intro a ha hmem
          have h2 := hall a hmem
          rw [hkeys] at h2
          exact h2 (by simp [ha])
        · intro a ha
          rcases List.mem_append.mp ha with h | h
          · exact hspec.2 a h
          · have h2 := hall a h
            rw [hkeys] at h2
            intro hc
            exact h2 (by simp [hc])
      · rintro ⟨⟨hnd1, hnd2, hdisj⟩, hall⟩
        refine ⟨hnd2, ?_⟩
        intro a ha
        rw [hkeys]
        intro hc
        rcases List.mem_append.mp hc with h | h
        · exact hall a (by simp [ha]) h
        · exact hdisj h ha

theorem check_image_cycles_go_iff (allImages : List ImageMeta) :
    ∀ l : List ImageMeta,
      check_image_cycles.go allImages l = .ok () ↔
        ∀ img ∈ l, ∀ child ∈ childrenOf allImages img.distgit_key,
          is_ancestor allImages allImages.length img.distgit_key child = false := by
  intro l
  induction l with
  | nil => simp [check_image_cycles.go]
  | cons img rest ih =>
    simp only [check_image_cycles.go]
    cases hf : (childrenOf allImages img.distgit_key).find?
        (fun child => is_ancestor allImages allImages.length img.distgit_key child) with
    | some child =>
      constructor
      · intro h; exact absurd h (by simp)
      · intro hall
        have hmem := List.mem_of_find?_eq_some hf
        have hpred := List.find?_some hf
        have h2 := hall img (by simp) child hmem
        rw [h2] at hpred
        exact absurd hpred (by simp)
    | none =>
      rw [ih]
      constructor
      · intro hall img2 himg2 child hchild
        rcases List.mem_cons.mp himg2 with h | h
        · subst h
          have := List.find?_eq_none.mp hf child hchild
          simpa using this
        · exact hall img2 h child hchild
      · intro hall img2 himg2 child hchild
        exact hall img2 (by simp [himg2]) child hchild

/-- Claim C2 (counterexample): with two independent duplicate distgit pairs,
two independent bundle-alias collisions, and two disjoint parent/child cycles,
each detection raises on the first offender and its error message does not
mention the second offending item, so the offenders are not all collected into
one fatal error. -/
theorem detection_first_offender_counterexample :
    duplicate_distgit_check
        [⟨"ns", "n", "br", "f1"⟩, ⟨"ns", "n", "br", "f2"⟩,
         ⟨"ns2", "n2", "br2", "f3"⟩, ⟨"ns2", "n2", "br2", "f4"⟩]
      = .error "Complete duplicate distgit & branch; something wrong with metadata: ns/n/#br from f2 and f1" ∧
    strContains
      "Complete duplicate distgit & branch; something wrong with metadata: ns/n/#br from f2 and f1"
      "ns2" = false ∧
    ([⟨"ns", "n", "br", "f1"⟩, ⟨"ns", "n", "br", "f2"⟩,
      ⟨"ns2", "n2", "br2", "f3"⟩, ⟨"ns2", "n2", "br2", "f4"⟩].map metaKey).count
      "ns2/n2/#br2" = 2 ∧
    register_image_names
        [⟨"k1", "openshift/ose-foo", none⟩, ⟨"k2", "openshift/foo", none⟩,
         ⟨"k3", "openshift/ose-qux", none⟩, ⟨"k4", "openshift/qux", none⟩]
      = .error "Image k2 has name_in_bundle=foo, which is already taken by image k1" ∧
    strContains "Image k2 has name_in_bundle=foo, which is already taken by image k1"
      "qux" = false ∧
    check_image_cycles
        [⟨"img1", some "img2"⟩, ⟨"img2", some "img1"⟩,
         ⟨"oth1", some "oth2"⟩, ⟨"oth2", some "oth1"⟩]
      = .error "img2 cannot be both a parent and dependent of img1" ∧
    strContains "img2 cannot be both a parent and dependent of img1" "oth1" = false :=
  ⟨rfl, by decide, by decide, rfl, by decide, rfl, by decide⟩

/-- Claim C2 (amended): cycle detection, duplicate name-in-bundle alias
detection, and duplicate (namespace, name, branch) distgit detection each
report a fatal error precisely when an offending item exists, but fail on the
first offender found (naming it and its conflicting counterpart) rather than
collecting every offender into one error. -/
theorem detection_checks_fail_fast :
    (∀ metas : List MetaKeyInfo,
      duplicate_distgit_check metas = .ok () ↔ (metas.map metaKey).Nodup) ∧
    (∀ records : List ImageNameRecord,
      (∃ m, register_image_names records = .ok m) ↔
        ((records.map bundleAliasesOf).flatten).Nodup) ∧
    (∀ allImages : List ImageMeta,
      check_image_cycles allImages = .ok () ↔
        ∀ img ∈ allImages, ∀ child ∈ childrenOf allImages img.distgit_key,
          is_ancestor allImages allImages.length img.distgit_key child = false) := by
  refine ⟨?_, ?_, ?_⟩
  · intro metas
    show duplicate_distgit_check.go metas [] = .ok () ↔ _
    rw [duplicate_distgit_go_iff]
    simp [lookupStr]
  · intro records
    show (∃ m, register_image_names.go records [] = .ok m) ↔ _
    rw [register_image_names_go_iff]
    simp
  · intro allImages
    exact check_image_cycles_go_iff allImages allImages

/-! ### Level-list lemmas for the build-order proof -/

theorem getD_replicate_nil : ∀ (k i : Nat),
    (List.replicate k ([] : List String)).getD i [] = [] := by
  intro k
  induction k with
  | zero => intro i; cases i <;> rfl
  | succ n ih =>
    intro i
    cases i with
    | zero => rfl
    | succ m => exact ih m

theorem getD_append_replicate_nil (ls : Levels) (k : Nat) :
    ∀ i : Nat, (ls ++ List.replicate k ([] : List String)).getD i [] = ls.getD i [] := by
  induction ls with
  | nil =>
    intro i
    rw [List.nil_append, getD_replicate_nil]
    cases i <;> rfl
  | cons a rest ih =>
    intro i
    cases i with
    | zero => rfl
    | succ m => exact ih m

theorem getLevel_ensureLevel (ls : Levels) (level i : Nat) :
    getLevel (ensureLevel ls level) i = getLevel ls i := by
  unfold ensureLevel getLevel
  by_cases h : level < ls.length
  · rw [if_pos h]
  · rw [if_neg h]
    exact getD_append_replicate_nil ls _ i

theorem length_ensureLevel (ls : Levels) (level : Nat) :
    level < (ensureLevel ls level).length := by
  unfold ensureLevel
  by_cases h : level < ls.length
  · rw [if_pos h]; exact h
  · rw [if_neg h, List.length_append, List.length_replicate]
    omega

theorem getD_set_self : ∀ (ls : Levels) (i : Nat), i < ls.length →
    ∀ v, (ls.set i v).getD i [] = v := by
  intro ls
  induction ls with
  | nil => intro i h; exact absurd h (by simp)
  | cons a rest ih =>
    intro i h v
    cases i with
    | zero => rfl
    | succ n => exact ih n (by simpa using h) v

theorem getD_set_ne : ∀ (ls : Levels) (i j : Nat), i ≠ j →
    ∀ v, (ls.set i v).getD j [] = ls.getD j [] := by
  intro ls
  induction ls with
  | nil => intro i j _ v; cases i <;> rfl
  | cons a rest ih =>
    intro i j hne v
    cases i with
    | zero =>
      cases j with
      | zero => exact absurd rfl hne
      | succ m => rfl
    | succ n =>
      cases j with
      | zero => rfl
      | succ m => exact ih n m (fun h => hne (by rw [h])) v

theorem getLevel_appendAt_self (ls : Levels) (level : Nat) (x : String) :
    getLevel (appendAt ls level x) level = getLevel ls level ++ [x] := by
  show getLevel ((ensureLevel ls level).set level
    (getLevel (ensureLevel ls level) level ++ [x])) level = _
  unfold getLevel
  rw [getD_set_self _ level (length_ensureLevel ls level)]
  have h := getLevel_ensureLevel ls level level
  unfold getLevel at h
  rw [h]

theorem getLevel_appendAt_ne (ls : Levels) (level i : Nat) (hne : i ≠ level) (x : String) :
    getLevel (appendAt ls level x) i = getLevel ls i := by
  show getLevel ((ensureLevel ls level).set level
    (getLevel (ensureLevel ls level) level ++ [x])) i = _
  unfold getLevel
  rw [getD_set_ne _ level i (fun h => hne h.symm)]
  have h := getLevel_ensureLevel ls level i
  unfold getLevel at h
  rw [h]

theorem mem_getLevel_appendAt (ls : Levels) (level i : Nat) (x y : String)
    (h : y ∈ getLevel ls i) : y ∈ getLevel (appendAt ls level x) i := by
  by_cases he : i = level
  · subst he
    rw [getLevel_appendAt_self]
    exact List.mem_append_left _ h
  · rw [getLevel_appendAt_ne ls level i he]
    exact h

theorem foldl_preserves_mem {α β : Type} (P : β → Prop) (f : β → α → β) :
    ∀ (l : List α), (∀ b a, a ∈ l → P b → P (f b a)) → ∀ b, P b → P (l.foldl f b) := by
  intro l
  induction l with
  | nil => intro _ b hb; exact hb
  | cons a as ih =>
    intro h b hb
    exact ih (fun b2 a2 ha2 hb2 => h b2 a2 (by simp [ha2]) hb2) (f b a) (h b a (by simp) hb)

theorem add_child_branch_mem_mono (allImages : List ImageMeta) (mapKeys : List String) :
    ∀ (fuel : Nat) (c : String) (level : Nat) (ls : Levels) (i : Nat) (x : String),
      x ∈ getLevel ls i → x ∈ getLevel (add_child_branch allImages mapKeys fuel c level ls) i := by
  intro fuel
  induction fuel with
  | zero => intro c level ls i x h; exact h
  | succ n ih =>
    intro c level ls i x h
    rw [add_child_branch]
    refine foldl_preserves_mem (fun acc => x ∈ getLevel acc i) _ _ ?_ _ ?_
    · intro b a _ hb
      show x ∈ getLevel (if a ∈ mapKeys then
        add_child_branch allImages mapKeys n a (level + 1) (appendAt b level a) else b) i
      by_cases hm : a ∈ mapKeys
      · rw [if_pos hm]
        exact ih a (level + 1) (appendAt b level a) i x (mem_getLevel_appendAt b level i a x hb)
      · rw [if_neg hm]; exact hb
    · show x ∈ getLevel (ensureLevel ls level) i
      rw [getLevel_ensureLevel]; exact h

theorem add_child_branch_level_zero (allImages : List ImageMeta) (mapKeys : List String) :
    ∀ (fuel : Nat) (c : String) (l : Nat) (ls : Levels),
      getLevel (add_child_branch allImages mapKeys fuel c (l + 1) ls) 0 = getLevel ls 0 := by
  intro fuel
  induction fuel with
  | zero => intro c l ls; rfl
  | succ n ih =>
    intro c l ls
    rw [add_child_branch]
    refine foldl_preserves_mem (fun acc => getLevel acc 0 = getLevel ls 0) _ _ ?_ _ ?_
    · intro b a _ hb
      show getLevel (if a ∈ mapKeys then
        add_child_branch allImages mapKeys n a (l + 1 + 1) (appendAt b (l + 1) a) else b) 0
        = getLevel ls 0
      by_cases hm : a ∈ mapKeys
      · rw [if_pos hm, ih a (l + 1) (appendAt b (l + 1) a),
          getLevel_appendAt_ne b (l + 1) 0 (by omega) a]
        exact hb
      · rw [if_neg hm]; exact hb
    · show getLevel (ensureLevel ls (l + 1)) 0 = getLevel ls 0
      rw [getLevel_ensureLevel]

theorem parentOk_ensureLevel (allImages : List ImageMeta) (ls : Levels) (level : Nat)
    (h : parentOk allImages ls) : parentOk allImages (ensureLevel ls level) := by
  intro i x hx
  rw [getLevel_ensureLevel] at hx
  rcases h i x hx with ⟨p, hp, hcp⟩
  refine ⟨p, ?_, hcp⟩
  rw [getLevel_ensureLevel]
  exact hp

theorem parentOk_appendAt_zero (allImages : List ImageMeta) (ls : Levels) (x : String)
    (h : parentOk allImages ls) : parentOk allImages (appendAt ls 0 x) := by
  intro i y hy
  rw [getLevel_appendAt_ne ls 0 (i + 1) (by omega)] at hy
  rcases h i y hy with ⟨p, hp, hcp⟩
  exact ⟨p, mem_getLevel_appendAt ls 0 i x p hp, hcp⟩

theorem parentOk_appendAt_succ (allImages : List ImageMeta) (ls : Levels) (l : Nat)
    (c a : String) (hc : c ∈ getLevel ls l) (ha : a ∈ childrenOf allImages c)
    (h : parentOk allImages ls) : parentOk allImages (appendAt ls (l + 1) a) := by
  intro i y hy
  by_cases hi : i + 1 = l + 1
  · have hil : i = l := by omega
    subst hil
    rw [getLevel_appendAt_self] at hy
    rcases List.mem_append.mp hy with hy | hy
    · rcases h i y hy with ⟨p, hp, hcp⟩
      exact ⟨p, mem_getLevel_appendAt ls (i + 1) i a p hp, hcp⟩
    · rw [List.mem_singleton.mp hy]
      refine ⟨c, ?_, ha⟩
      rw [getLevel_appendAt_ne ls (i + 1) i (by omega)]
      exact hc
  · rw [getLevel_appendAt_ne ls (l + 1) (i + 1) hi] at hy
    rcases h i y hy with ⟨p, hp, hcp⟩
    exact ⟨p, mem_getLevel_appendAt ls (l + 1) i a p hp, hcp⟩

theorem add_child_branch_parentOk (allImages : List ImageMeta) (mapKeys : List String) :
    ∀ (fuel : Nat) (c : String) (l : Nat) (ls : Levels),
      parentOk allImages ls → c ∈ getLevel ls l →
      parentOk allImages (add_child_branch allImages mapKeys fuel c (l + 1) ls) := by
  intro fuel
  induction fuel with
  | zero => intro c l ls hpo _; exact hpo
  | succ n ih =>
    intro c l ls hpo hc
    rw [add_child_branch]
    have hall := foldl_preserves_mem
      (fun acc => parentOk allImages acc ∧ c ∈ getLevel acc l)
      (fun acc sub_child => if sub_child ∈ mapKeys then
        add_child_branch allImages mapKeys n sub_child (l + 1 + 1) (appendAt acc (l + 1) sub_child)
        else acc)
      (childrenOf allImages c)
      (by
        intro b a ha hb
        show parentOk allImages (if a ∈ mapKeys then
            add_child_branch allImages mapKeys n a (l + 1 + 1) (appendAt b (l + 1) a) else b) ∧
          c ∈ getLevel (if a ∈ mapKeys then
            add_child_branch allImages mapKeys n a (l + 1 + 1) (appendAt b (l + 1) a) else b) l
        by_cases hm : a ∈ mapKeys
        · rw [if_pos hm]
          have hpo2 : parentOk allImages (appendAt b (l + 1) a) :=
            parentOk_appendAt_succ allImages b l c a hb.2 ha hb.1
          have hamem : a ∈ getLevel (appendAt b (l + 1) a) (l + 1) := by
            rw [getLevel_appendAt_self]
            exact List.mem_append_right _ (by simp)
          have hcmem : c ∈ getLevel (appendAt b (l + 1) a) l :=
            mem_getLevel_appendAt b (l + 1) l a c hb.2
          exact ⟨ih a (l + 1) (appendAt b (l + 1) a) hpo2 hamem,
            add_child_branch_mem_mono allImages mapKeys n a (l + 1 + 1)
              (appendAt b (l + 1) a) l c hcmem⟩
        · rw [if_neg hm]; exact hb)
      (ensureLevel ls (l + 1))
      (by
        refine ⟨parentOk_ensureLevel allImages ls (l + 1) hpo, ?_⟩
        show c ∈ getLevel (ensureLevel ls (l + 1)) l
        rw [getLevel_ensureLevel]
        exact hc)
    exact hall.1

theorem image_lists_parentOk (allImages imageMap : List ImageMeta) :
    parentOk allImages (image_lists_of allImages imageMap) := by
  unfold image_lists_of
  refine foldl_preserves_mem (fun acc => parentOk allImages acc) _ _ ?_ _ ?_
  · intro b img _ hb
    show parentOk allImages (if img.parent = none then
      add_child_branch allImages (imageMap.map (fun m => m.distgit_key))
        (allImages.length + 1) img.distgit_key 1 (appendAt b 0 img.distgit_key) else b)
    by_cases hp : img.parent = none
    · rw [if_pos hp]
      have hpo := parentOk_appendAt_zero allImages b img.distgit_key hb
      have hmem : img.distgit_key ∈ getLevel (appendAt b 0 img.distgit_key) 0 := by
        rw [getLevel_appendAt_self]
        exact List.mem_append_right _ (by simp)
      exact add_child_branch_parentOk allImages _ (allImages.length + 1)
        img.distgit_key 0 (appendAt b 0 img.distgit_key) hpo hmem
    · rw [if_neg hp]; exact hb
  · intro i x hx
    have : getLevel ([[]] : Levels) (i + 1) = [] := by
      cases i <;> rfl
    rw [this] at hx
    exact absurd hx (by simp)

theorem image_lists_level_zero (allImages imageMap : List ImageMeta) :
    ∀ x ∈ getLevel (image_lists_of allImages imageMap) 0,
      ∃ img, img ∈ imageMap ∧ img.distgit_key = x ∧ img.parent = none := by
  unfold image_lists_of
  refine foldl_preserves_mem
    (fun acc => ∀ x ∈ getLevel acc 0,
      ∃ img, img ∈ imageMap ∧ img.distgit_key = x ∧ img.parent = none) _ _ ?_ _ ?_
  · intro b img himg hb
    show ∀ x ∈ getLevel (if img.parent = none then
      add_child_branch allImages (imageMap.map (fun m => m.distgit_key))
        (allImages.length + 1) img.distgit_key 1 (appendAt b 0 img.distgit_key) else b) 0,
      ∃ i2, i2 ∈ imageMap ∧ i2.distgit_key = x ∧ i2.parent = none
    by_cases hp : img.parent = none
    · rw [if_pos hp]
      intro x hx
      rw [add_child_branch_level_zero allImages _ (allImages.length + 1)
        img.distgit_key 0, getLevel_appendAt_self] at hx
      rcases List.mem_append.mp hx with hx | hx
      · exact hb x hx
      · exact ⟨img, himg, (List.mem_singleton.mp hx).symm, hp⟩
    · rw [if_neg hp]; exact hb
  · intro x hx
    have h0 : getLevel ([[]] : Levels) 0 = [] := rfl
    rw [h0] at hx
    exact absurd hx (by simp)

theorem dedupAppend_nodup (order : List String) (i : String) (h : order.Nodup) :
    (dedupAppend order i).Nodup := by
  unfold dedupAppend
  by_cases hm : i ∈ order
  · rw [if_pos hm]; exact h
  · rw [if_neg hm]
    rw [List.nodup_append]
    refine ⟨h, List.nodup_singleton i, ?_⟩
    intro a ha hai
    rw [List.mem_singleton.mp hai] at ha
    exact hm ha

theorem foldl_dedup_nodup (lvl : List String) :
    ∀ order : List String, order.Nodup → (lvl.foldl dedupAppend order).Nodup := by
  induction lvl with
  | nil => intro order h; exact h
  | cons a rest ih =>
    intro order h
    exact ih (dedupAppend order a) (dedupAppend_nodup order a h)

theorem flattenFrom_nodup (lists : Levels) :
    ∀ order : List String, order.Nodup → (flattenFrom lists order).Nodup := by
  induction lists with
  | nil => intro order h; exact h
  | cons lvl rest ih =>
    intro order h
    exact ih (lvl.foldl dedupAppend order) (foldl_dedup_nodup lvl order h)

theorem dedupAppend_isPrefix (order : List String) (i : String) :
    order <+: dedupAppend order i := by
  unfold dedupAppend
  by_cases hm : i ∈ order
  · rw [if_pos hm]
  · rw [if_neg hm]; exact ⟨[i], rfl⟩

theorem foldl_dedup_isPrefix (lvl : List String) :
    ∀ order : List String, order <+: lvl.foldl dedupAppend order := by
  induction lvl with
  | nil => intro order; exact List.prefix_refl _
  | cons a rest ih =>
    intro order
    exact (dedupAppend_isPrefix order a).trans (ih (dedupAppend order a))

theorem flattenFrom_isPrefix (lists : Levels) :
    ∀ order : List String, order <+: flattenFrom lists order := by
  induction lists with
  | nil => intro order; exact List.prefix_refl _
  | cons lvl rest ih =>
    intro order
    exact (foldl_dedup_isPrefix lvl order).trans (ih (lvl.foldl dedupAppend order))

theorem mem_foldl_dedup (lvl : List String) :
    ∀ (order : List String) (x : String),
      x ∈ lvl.foldl dedupAppend order ↔ x ∈ order ∨ x ∈ lvl := by
  induction lvl with
  | nil => intro order x; simp
  | cons a rest ih =>
    intro order x
    rw [List.foldl_cons, ih]
    unfold dedupAppend
    by_cases hm : a ∈ order
    · rw [if_pos hm]
      simp only [List.mem_cons]
      constructor
      · rintro (h | h)
        · exact Or.inl h
        · exact Or.inr (Or.inr h)
      · rintro (h | h | h)
        · exact Or.inl h
        · rw [h]; exact Or.inl hm
        · exact Or.inr h
    · rw [if_neg hm]
      simp only [List.mem_append, List.mem_singleton, List.mem_cons]
      tauto

theorem mem_flattenFrom (lists : Levels) :
    ∀ (order : List String) (x : String),
      x ∈ flattenFrom lists order ↔ x ∈ order ∨ ∃ lvl ∈ lists, x ∈ lvl := by
  induction lists with
  | nil => intro order x; simp [flattenFrom]
  | cons lvl rest ih =>
    intro order x
    show x ∈ flattenFrom rest (lvl.foldl dedupAppend order) ↔ _
    rw [ih, mem_foldl_dedup]
    simp only [List.mem_cons]
    constructor
    · rintro ((h | h) | ⟨l2, hl2, hx⟩)
      · exact Or.inl h
      · exact Or.inr ⟨lvl, Or.inl rfl, h⟩
      · exact Or.inr ⟨l2, Or.inr hl2, hx⟩
    · rintro (h | ⟨l2, hl2 | hl2, hx⟩)
      · exact Or.inl (Or.inl h)
      · rw [hl2] at hx; exact Or.inl (Or.inr hx)
      · exact Or.inr ⟨l2, hl2, hx⟩

theorem mem_take_exists (lists : Levels) :
    ∀ (n : Nat) (lvl : List String), lvl ∈ lists.take n →
      ∃ k, k < n ∧ getLevel lists k = lvl := by
  induction lists with
  | nil => intro n lvl h; rw [List.take_nil] at h; exact absurd h (by simp)
  | cons a rest ih =>
    intro n lvl h
    cases n with
    | zero => exact absurd h (by simp)
    | succ m =>
      rw [List.take_succ_cons] at h
      rcases List.mem_cons.mp h with h | h
      · exact ⟨0, by omega, h.symm⟩
      · rcases ih m lvl h with ⟨k, hk, hg⟩
        exact ⟨k + 1, by omega, hg⟩

theorem getLevel_mem_take (lists : Levels) :
    ∀ i : Nat, i < lists.length → getLevel lists i ∈ lists.take (i + 1) := by
  induction lists with
  | nil => intro i h; exact absurd h (by simp)
  | cons a rest ih =>
    intro i h
    cases i with
    | zero => simp [getLevel]
    | succ m =>
      rw [List.take_succ_cons]
      refine List.mem_cons_of_mem a ?_
      exact ih m (by simpa using h)

theorem flattenFrom_append (l1 l2 : Levels) (order : List String) :
    flattenFrom (l1 ++ l2) order = flattenFrom l2 (flattenFrom l1 order) := by
  unfold flattenFrom
  rw [List.foldl_append]

theorem getLevel_eq_nil_of_le (lists : Levels) (i : Nat) (h : lists.length ≤ i) :
    getLevel lists i = [] := by
  unfold getLevel
  rw [List.getD_eq_getElem?_getD, List.getElem?_eq_none h]
  rfl

theorem flatten_order_core (lists : Levels) (a b : String) (i : Nat)
    (ha : a ∈ getLevel lists i)
    (hb : ∀ k, k ≤ i → b ∉ getLevel lists k) :
    ∀ j : Nat, (flattenFrom lists [])[j]? = some b →
      ∃ k : Nat, k < j ∧ (flattenFrom lists [])[k]? = some a := by
  intro j hj
  have hlen : i < lists.length := by
    by_contra hc
    rw [getLevel_eq_nil_of_le lists i (le_of_not_lt hc)] at ha
    exact absurd ha (by simp)
  have hsplit : flattenFrom lists [] =
      flattenFrom (lists.drop (i + 1)) (flattenFrom (lists.take (i + 1)) []) := by
    rw [← flattenFrom_append, List.take_append_drop]
  have hamid : a ∈ flattenFrom (lists.take (i + 1)) [] := by
    rw [mem_flattenFrom]
    exact Or.inr ⟨getLevel lists i, getLevel_mem_take lists i hlen, ha⟩
  have hbmid : b ∉ flattenFrom (lists.take (i + 1)) [] := by
    rw [mem_flattenFrom]
    rintro (h | ⟨lvl, hlvl, hbl⟩)
    · exact absurd h (by simp)
    · rcases mem_take_exists lists (i + 1) lvl hlvl with ⟨k, hk, hg⟩
      exact hb k (by omega) (hg ▸ hbl)
  rcases (by rw [hsplit]; exact flattenFrom_isPrefix _ _ :
      flattenFrom (lists.take (i + 1)) [] <+: flattenFrom lists []) with ⟨t, ht⟩
  rcases List.getElem?_of_mem hamid with ⟨k, hk⟩
  rcases List.getElem?_eq_some_iff.mp hk with ⟨hklt, -⟩
  refine ⟨k, ?_, ?_⟩
  · by_contra hjk
    have hjlt : j < (flattenFrom (lists.take (i + 1)) []).length := by omega
    rw [← ht, List.getElem?_append_left hjlt] at hj
    exact hbmid (List.getElem?_mem hj)
  · rw [← ht, List.getElem?_append_left hklt]
    exact hk

/-- Claim C3: after `generate_image_tree` runs, for any two images `I1`, `I2`
present in `image_map` such that `I1` is the resolved parent of `I2`, the
distgit key of `I2` never appears before the distgit key of `I1` in
`image_order` (whenever `I2`'s key appears, `I1`'s key appears strictly
earlier), and each distgit key appears at most once in `image_order`. -/
theorem generate_image_tree_order (allImages imageMap : List ImageMeta)
    (hnd : (allImages.map (fun m => m.distgit_key)).Nodup)
    (hsub : ∀ m ∈ imageMap, m ∈ allImages)
    (I1 I2 : ImageMeta) (h1 : I1 ∈ imageMap) (h2 : I2 ∈ imageMap)
    (hpar : I2.parent = some I1.distgit_key) :
    (generate_image_tree allImages imageMap).Nodup ∧
    (∀ j : Nat,
      (generate_image_tree allImages imageMap)[j]? = some I2.distgit_key →
      ∃ k : Nat, k < j ∧
        (generate_image_tree allImages imageMap)[k]? = some I1.distgit_key) := by
  constructor
  · exact flattenFrom_nodup _ [] List.nodup_nil
  · intro j hj
    have hmem : I2.distgit_key ∈ flattenFrom (image_lists_of allImages imageMap) [] :=
      List.getElem?_mem hj
    rw [mem_flattenFrom] at hmem
    rcases hmem with h | ⟨lvl, hlvl, hbl⟩
    · exact absurd h (by simp)
    have hex : ∃ n : Nat, I2.distgit_key ∈ getLevel (image_lists_of allImages imageMap) n := by
      rcases List.getElem?_of_mem hlvl with ⟨n, hn⟩
      refine ⟨n, ?_⟩
      unfold getLevel
      rw [List.getD_eq_getElem?_getD, hn]
      simpa using hbl
    have hmmem := Nat.find_spec hex
    have hmin : ∀ k, k < Nat.find hex →
        I2.distgit_key ∉ getLevel (image_lists_of allImages imageMap) k :=
      fun k hk => Nat.find_min hex hk
    cases hfind : Nat.find hex with
    | zero =>
      rw [hfind] at hmmem
      rcases image_lists_level_zero allImages imageMap I2.distgit_key hmmem with
        ⟨img, himg, hkey, hpnone⟩
      have heq : img = I2 :=
        List.inj_on_of_nodup_map hnd (hsub img himg) (hsub I2 h2) hkey
      rw [heq] at hpnone
      rw [hpnone] at hpar
      exact absurd hpar (by simp)
    | succ mp =>
      rw [hfind] at hmmem hmin
      rcases image_lists_parentOk allImages imageMap mp I2.distgit_key hmmem with
        ⟨p, hp, hchild⟩
      have hpI1 : p = I1.distgit_key := by
        unfold childrenOf at hchild
        rcases List.mem_map.mp hchild with ⟨meta, hmeta, hkeymeta⟩
        rcases List.mem_filter.mp hmeta with ⟨hmetaAll, hmetapar⟩
        have hmp : meta.parent = some p := by simpa using hmetapar
        have heq : meta = I2 :=
          List.inj_on_of_nodup_map hnd hmetaAll (hsub I2 h2) hkeymeta
        rw [heq] at hmp
        rw [hpar] at hmp
        exact (Option.some.inj hmp).symm
      rw [hpI1] at hp
      exact flatten_order_core (image_lists_of allImages imageMap)
        I1.distgit_key I2.distgit_key mp hp
        (fun k hk => hmin k (by omega)) j hj

/-- Witness for the C8 theorem at the concrete flags `g = true`, `c = false`. -/
theorem initialize_assembly_validation_witness :
    (true || false) = true ∧
    initialize_assembly true false "4.14" = .ok (some "4.14") ∧
    initialize_assembly true false "foo/bar" = .error "Assembly names may only consist of alphanumerics, ., and _, but not start or end with a dot (.)." :=
  ⟨rfl, (initialize_assembly_validation.1 true false rfl).1,
    (initialize_assembly_validation.1 true false rfl).2.2.2.2⟩

/-- Witness for the C10 theorem: the sign-prefixed branch `+abcdef0` is
returned as a commit-ish with no remote query. -/
theorem is_branch_commit_hash_accepts_nonhex_witness :
    detect_remote_source_branch "" false "https://example.com/r" (fun _ => some "")
        ⟨"+abcdef0", none, none⟩
      = (.ok ("+abcdef0", "+abcdef0"), []) :=
  is_branch_commit_hash_accepts_nonhex.2.2.2.2.2.2 "" "https://example.com/r"
    (fun _ => some "") ⟨"+abcdef0", none, none⟩ (by decide) (by decide)

/-- Witness for the amended C4 theorem at a concrete 7-hex-character target. -/
theorem detect_hex_commit_witness :
    detect_remote_source_branch "" false "https://example.com/r" (fun _ => some "")
        ⟨"abcdef0", none, none⟩
      = (.ok ("abcdef0", "abcdef0"), []) :=
  detect_remote_source_branch_hex_commit "" "https://example.com/r" false
    (fun _ => some "") ⟨"abcdef0", none, none⟩ (by decide) (by decide) (by decide)
    (by decide)

/-- Witness for the amended C5 theorem at concrete branches
`release-4.14` / `main`, both absent from the remote. -/
theorem detect_fallback_error_witness :
    detect_remote_source_branch "" false "https://example.com/r" (fun _ => some "")
        ⟨"release-4.14", some "main", none⟩
      = (.error ("Requested fallback branch " ++ "release-4.14" ++ " does not exist"),
         ["release-4.14", "main"]) ∧
    strContains ("Requested fallback branch " ++ "release-4.14" ++ " does not exist")
      "release-4.14" = true :=
  detect_remote_source_branch_fallback_error "" "https://example.com/r" false
    (fun _ => some "") ⟨"release-4.14", some "main", none⟩ "main"
    (by decide) (by decide) (by decide) rfl (by decide) (by decide) rfl rfl

/-- Witness for the C6 theorem on concrete pool states: an empty pool stays
within capacity, a full pool sleeps one backoff and retries, and a leased
session comes back available with its caching flag reset. -/
theorem pooled_koji_client_session_witness :
    ((acquire_loop 1 ⟨[], [], fun _ => false⟩ 0).1.session_pool.length
      ≤ sessionPoolCapacity) ∧
    (acquire_loop 1 ⟨List.range 30, [], fun _ => false⟩ 0
      = acquire_loop 0 ⟨List.range 30, [], fun _ => false⟩ (0 + sessionPoolBackoff)) ∧
    ((release_session (setCaching (acquire_loop 1 ⟨[], [], fun _ => false⟩ 0).1 0 true)
        0).force_instance_caching 0 = false ∧
      0 ∈ (release_session (setCaching (acquire_loop 1 ⟨[], [], fun _ => false⟩ 0).1 0 true)
        0).session_pool_available) :=
  ⟨pooled_koji_client_session_contract.2.2.1 1 ⟨[], [], fun _ => false⟩ 0 (by decide),
   pooled_koji_client_session_contract.2.2.2.1 ⟨List.range 30, [], fun _ => false⟩ rfl
     (by decide) 0 0,
   (pooled_koji_client_session_contract.2.2.2.2 1 true ⟨[], [], fun _ => false⟩
     (.error "boom")
     (release_session (setCaching (acquire_loop 1 ⟨[], [], fun _ => false⟩ 0).1 0 true) 0)
     0 (.error "boom") rfl).1,
   (pooled_koji_client_session_contract.2.2.2.2 1 true ⟨[], [], fun _ => false⟩
     (.error "boom")
     (release_session (setCaching (acquire_loop 1 ⟨[], [], fun _ => false⟩ 0).1 0 true) 0)
     0 (.error "boom") rfl).2.1⟩

/-- Witness for the C3 theorem on a concrete two-image forest
(`base` is the resolved parent of `child`). -/
theorem generate_image_tree_order_witness :
    (generate_image_tree [⟨"base", none⟩, ⟨"child", some "base"⟩]
        [⟨"base", none⟩, ⟨"child", some "base"⟩]).Nodup ∧
    (∃ k : Nat, k < 1 ∧
      (generate_image_tree [⟨"base", none⟩, ⟨"child", some "base"⟩]
          [⟨"base", none⟩, ⟨"child", some "base"⟩])[k]? = some "base") :=
  ⟨(generate_image_tree_order [⟨"base", none⟩, ⟨"child", some "base"⟩]
      [⟨"base", none⟩, ⟨"child", some "base"⟩] (by decide) (by decide)
      ⟨"base", none⟩ ⟨"child", some "base"⟩ (by decide) (by decide) rfl).1,
   (generate_image_tree_order [⟨"base", none⟩, ⟨"child", some "base"⟩]
      [⟨"base", none⟩, ⟨"child", some "base"⟩] (by decide) (by decide)
      ⟨"base", none⟩ ⟨"child", some "base"⟩ (by decide) (by decide) rfl).2 1 (by decide)⟩

end Doozer
